import Mathlib

/-!
# CRMSystem: a mutex-guarded customer registry (programcpp.cxx)

A shallow embedding of the C++ program.

* `std::string` is `String`; `int` is `Int` (ages are only stored and printed, never
  computed with).
* Text written to `std::cout` is returned by each function as a `String`; a chain
  `std::cout << a << b << ...` is the left-nested concatenation `a ++ b ++ ...`, and
  `std::endl` contributes a newline.
* `std::map<std::string, std::shared_ptr<Customer>>` is `StdMap`: the entries in strictly
  increasing key order, keys compared with `std::less<std::string>` (`stringLess`).
  Records are never mutated after `std::make_shared`, so a shared pointer is its pointee.
* `std::lock_guard` makes each method body one critical section; a method is a function
  from the registry before the call to the registry after it together with the text
  written, and an execution of several threads is the list of their calls in the order
  in which they take the lock.
* The text produced by `<< std::this_thread::get_id()` is implementation defined; it is
  the parameter `tid`.
-/

namespace CRM

/-! ## Strings as map keys -/

/-- Lexicographic comparison of character sequences, as `std::string::compare` does it:
the first differing character decides, and a proper initial segment is smaller.
Characters are compared by their code; on UTF-8 text this is the order of the bytes that
`std::char_traits<char>` compares. -/
def lexLess : List Char → List Char → Bool
  | _, [] => false
  | [], _ :: _ => true
  | a :: as, b :: bs =>
    if a < b then true
    else if b < a then false
    else lexLess as bs

/-- The comparison `std::less<std::string>` used by the map. -/
def stringLess (a b : String) : Bool := lexLess a.data b.data

/-! ## Decimal numerals -/

/-- The decimal digits of a natural number, most significant first, "0" for zero. This is
the reference notion of "age in decimal", stated with `Nat.digits`; the text the program
writes for an `int` is compared with it in `toString_eq_decimal`. -/
def decimalDigits (n : Nat) : List Char :=
  if n = 0 then ['0'] else ((Nat.digits 10 n).reverse).map Nat.digitChar

/-- The decimal numeral of an integer: a minus sign for a negative number, then the digits
of its absolute value. -/
def decimal : Int → String
  | Int.ofNat n => String.mk (decimalDigits n)
  | Int.negSucc n => "-" ++ String.mk (decimalDigits (n + 1))

/-! ## Person and Customer -/

/-- Base class `Person`. -/
structure Person where
  name : String
  age : Int
deriving DecidableEq

/-- Text written by `Person::printDetails`. -/
def Person.printDetails (p : Person) : String :=
  "Name: " ++ p.name ++ ", Age: " ++ toString p.age ++ "\n"

/-- Derived class `Customer`. -/
structure Customer extends Person where
  customerID : String
deriving DecidableEq

/-- Constructor `Customer(name, age, customerID)`. -/
def Customer.new (name : String) (age : Int) (customerID : String) : Customer :=
  Customer.mk (Person.mk name age) customerID

/-- Text written by the override `Customer::printDetails`. -/
def Customer.printDetails (c : Customer) : String :=
  "Customer ID: " ++ c.customerID ++ ", Name: " ++ c.name ++ ", Age: " ++ toString c.age ++ "\n"

/-! ## The map -/

/-- Strictly increasing keys. -/
def KeysIncreasing (l : List (String × Customer)) : Prop :=
  l.Pairwise (fun a b => stringLess a.1 b.1 = true)

/-- Insertion position search of `operator[]` followed by the assignment: an entry whose key
is equivalent to `k` keeps its key and gets the value `v`, otherwise a new entry is
created at the position that keeps the keys ordered. -/
def insertEntry (k : String) (v : Customer) :
    List (String × Customer) → List (String × Customer)
  | [] => [(k, v)]
  | (k1, v1) :: rest =>
    if stringLess k k1 then (k, v) :: (k1, v1) :: rest
    else if stringLess k1 k then (k1, v1) :: insertEntry k v rest
    else (k1, v) :: rest

/-- Removal of the entry whose key is equivalent to `k`, if there is one (`erase(key)`). -/
def eraseEntry (k : String) : List (String × Customer) → List (String × Customer)
  | [] => []
  | (k1, v1) :: rest =>
    if stringLess k k1 then (k1, v1) :: rest
    else if stringLess k1 k then (k1, v1) :: eraseEntry k rest
    else rest

/-- Search for the entry whose key is equivalent to `k` (`find(key)`); `none` is `end()`. -/
def findEntry (k : String) : List (String × Customer) → Option Customer
  | [] => none
  | (k1, v1) :: rest =>
    if stringLess k k1 then none
    else if stringLess k1 k then findEntry k rest
    else some v1

/-! ## CRMSystem -/

/-- Class `CRMSystem`: the data member `customerData` (the mutex carries no data). -/
structure CRMSystem where
  customerData : List (String × Customer)
deriving DecidableEq

namespace CRMSystem

/-- A freshly constructed registry (`CRMSystem crm;`): the map is empty. -/
def empty : CRMSystem := CRMSystem.mk []

/-- Method `addCustomer`: `customerData[id] = std::make_shared<Customer>(name, age, id)`,
then the log line. Returns the registry after the call and the text written. -/
def addCustomer (crm : CRMSystem) (tid id name : String) (age : Int) : CRMSystem × String :=
  (CRMSystem.mk (insertEntry id (Customer.new name age id) crm.customerData),
   "[Thread " ++ tid ++ "] Customer " ++ id ++ " added.\n")

/-- Method `removeCustomer`: `customerData.erase(id)`, then the log line. -/
def removeCustomer (crm : CRMSystem) (tid id : String) : CRMSystem × String :=
  (CRMSystem.mk (eraseEntry id crm.customerData),
   "[Thread " ++ tid ++ "] Customer " ++ id ++ " removed.\n")

/-- The lookup `customerData.find(id)` made by `printCustomer`: the record the iterator
points to, or `none` when the iterator is `end()`. -/
def find (crm : CRMSystem) (id : String) : Option Customer :=
  findEntry id crm.customerData

/-- Method `printCustomer`: the text written. -/
def printCustomer (crm : CRMSystem) (id : String) : String :=
  match crm.find id with
  | some c => c.printDetails
  | none => "Customer with ID " ++ id ++ " not found.\n"

/-- The records visited by the loop `for (const auto& pair : customerData)`, in iteration
order. -/
def listAll (crm : CRMSystem) : List Customer :=
  crm.customerData.map (fun pair => pair.2)

/-- Method `printAllCustomers`: the text written, one `printDetails` per visited entry. -/
def printAllCustomers (crm : CRMSystem) : String :=
  crm.customerData.foldl (fun out pair => out ++ pair.2.printDetails) ""

/-- Number of entries of the map (`customerData.size()`). -/
def size (crm : CRMSystem) : Nat := crm.customerData.length

end CRMSystem

/-! ## Worker tasks and main -/

/-- A call started on its own thread: `addCustomerTask(crm, id, name, age)` or
`removeCustomerTask(crm, id)`. The field `tid` is the printed id of the thread. -/
inductive Call where
  | add (tid id name : String) (age : Int)
  | remove (tid id : String)
deriving DecidableEq

/-- The id a call operates on. -/
def Call.id : Call → String
  | Call.add _ id _ _ => id
  | Call.remove _ id => id

/-- Whether the call is an `addCustomer`. -/
def Call.isAdd : Call → Bool
  | Call.add _ _ _ _ => true
  | Call.remove _ _ => false

/-- Function `addCustomerTask`: the call to `addCustomer` (the sleep that follows touches
neither the registry nor the output). -/
def addCustomerTask (crm : CRMSystem) (tid id name : String) (age : Int) : CRMSystem × String :=
  crm.addCustomer tid id name age

/-- Function `removeCustomerTask`: the call to `removeCustomer`. -/
def removeCustomerTask (crm : CRMSystem) (tid id : String) : CRMSystem × String :=
  crm.removeCustomer tid id

/-- Effect of one call on the registry, with the text it writes. -/
def Call.exec (crm : CRMSystem) : Call → CRMSystem × String
  | Call.add tid id name age => addCustomerTask crm tid id name age
  | Call.remove tid id => removeCustomerTask crm tid id

/-- Calls applied one after another, in the order in which they take the lock. -/
def runCalls (crm : CRMSystem) : List Call → CRMSystem × String
  | [] => (crm, "")
  | c :: cs =>
    let r := c.exec crm
    let r2 := runCalls r.1 cs
    (r2.1, r.2 ++ r2.2)

/-- The three calls started by `main` on threads `t1`, `t2`, `t3`. -/
def mainCalls (tid1 tid2 tid3 : String) : List Call :=
  [Call.add tid1 "C001" "Alice" 30, Call.add tid2 "C002" "Bob" 25, Call.remove tid3 "C001"]

/-- Function `main` under a given serialization of its three threads: the log lines of the
calls, the heading, and the final listing. -/
def main (schedule : List Call) : String :=
  let r := runCalls CRMSystem.empty schedule
  r.2 ++ "\nFinal list of customers:\n" ++ r.1.printAllCustomers

/-- Every entry holds a record whose `customerID` is the entry's key, as `addCustomer`
builds it. -/
def KeyIsCustomerID (l : List (String × Customer)) : Prop :=
  ∀ e ∈ l, e.2.customerID = e.1

/-! ## The key order is a strict total order -/

theorem lexLess_irrefl (a : List Char) : lexLess a a = false := by
  induction a with
  | nil => rfl
  | cons x xs ih => simp [lexLess, ih]

theorem lexLess_nil_right (a : List Char) : lexLess a [] = false := by
  cases a <;> rfl

theorem lexLess_cons (x y : Char) (xs ys : List Char) :
    lexLess (x :: xs) (y :: ys) = true ↔ x < y ∨ (x = y ∧ lexLess xs ys = true) := by
  simp only [lexLess]
  rcases lt_trichotomy x y with h | h | h
  · simp [h]
  · subst h; simp
  · simp [h, not_lt_of_gt h, ne_of_gt h]

theorem lexLess_trans (a : List Char) : ∀ b c : List Char,
    lexLess a b = true → lexLess b c = true → lexLess a c = true := by
  induction a with
  | nil =>
    intro b c h1 h2
    cases c with
    | nil => rw [lexLess_nil_right] at h2; cases h2
    | cons z zs => rfl
  | cons x xs ih =>
    intro b c h1 h2
    cases b with
    | nil => rw [lexLess_nil_right] at h1; cases h1
    | cons y ys =>
      cases c with
      | nil => rw [lexLess_nil_right] at h2; cases h2
      | cons z zs =>
        rw [lexLess_cons] at h1 h2 ⊢
        rcases h1 with h1 | ⟨rfl, h1⟩
        · rcases h2 with h2 | ⟨rfl, _⟩
          · exact Or.inl (lt_trans h1 h2)
          · exact Or.inl h1
        · rcases h2 with h2 | ⟨rfl, h2⟩
          · exact Or.inl h2
          · exact Or.inr ⟨rfl, ih ys zs h1 h2⟩

theorem lexLess_connected (a : List Char) : ∀ b : List Char,
    lexLess a b = false → lexLess b a = false → a = b := by
  induction a with
  | nil =>
    intro b h1 _
    cases b with
    | nil => rfl
    | cons y ys => cases h1
  | cons x xs ih =>
    intro b h1 h2
    cases b with
    | nil => cases h2
    | cons y ys =>
      have n1 : ¬ (x < y ∨ (x = y ∧ lexLess xs ys = true)) := by
        rw [← lexLess_cons]; simp [h1]
      have n2 : ¬ (y < x ∨ (y = x ∧ lexLess ys xs = true)) := by
        rw [← lexLess_cons]; simp [h2]
      have hxy : x = y := by
        rcases lt_trichotomy x y with h | h | h
        · exact absurd (Or.inl h) n1
        · exact h
        · exact absurd (Or.inl h) n2
      subst hxy
      have e : xs = ys := by
        apply ih
        · cases h : lexLess xs ys
          · rfl
          · exact absurd (Or.inr ⟨rfl, h⟩) n1
        · cases h : lexLess ys xs
          · rfl
          · exact absurd (Or.inr ⟨rfl, h⟩) n2
      rw [e]

theorem stringLess_irrefl (a : String) : stringLess a a = false :=
  lexLess_irrefl a.data

theorem stringLess_trans {a b c : String} (h1 : stringLess a b = true)
    (h2 : stringLess b c = true) : stringLess a c = true :=
  lexLess_trans a.data b.data c.data h1 h2

theorem stringLess_connected {a b : String} (h1 : stringLess a b = false)
    (h2 : stringLess b a = false) : a = b :=
  String.ext (lexLess_connected a.data b.data h1 h2)

theorem stringLess_asymm {a b : String} (h : stringLess a b = true) :
    stringLess b a = false := by
  cases h2 : stringLess b a
  · rfl
  · have h3 := stringLess_trans h h2
    rw [stringLess_irrefl] at h3
    cases h3

theorem stringLess_ne {a b : String} (h : stringLess a b = true) : a ≠ b := by
  intro e
  subst e
  rw [stringLess_irrefl] at h
  cases h

/-! ## The text written for an `int` is its decimal numeral -/

theorem toDigitsCore_eq_digits (fuel : Nat) : ∀ (n : Nat) (ds : List Char), 0 < n → n < fuel →
    Nat.toDigitsCore 10 fuel n ds = ((Nat.digits 10 n).reverse).map Nat.digitChar ++ ds := by
  induction fuel with
  | zero => intro n ds _ h; omega
  | succ f ih =>
    intro n ds hpos hlt
    have hd : Nat.digits 10 n = (n % 10) :: Nat.digits 10 (n / 10) :=
      Nat.digits_def' (by decide) hpos
    rw [hd]
    unfold Nat.toDigitsCore
    by_cases hz : n / 10 = 0
    · simp [hz]
    · have h1 : 0 < n / 10 := Nat.pos_of_ne_zero hz
      have h2 : n / 10 < f := by omega
      simp only [hz, if_false]
      rw [ih (n / 10) _ h1 h2]
      simp

theorem toDigits_eq_decimalDigits (n : Nat) : Nat.toDigits 10 n = decimalDigits n := by
  unfold Nat.toDigits decimalDigits
  by_cases hz : n = 0
  · subst hz
    rfl
  · rw [if_neg hz,
      toDigitsCore_eq_digits (n + 1) n [] (Nat.pos_of_ne_zero hz) (Nat.lt_succ_self n)]
    simp

theorem toString_eq_decimal (z : Int) : toString z = decimal z := by
  cases z with
  | ofNat n =>
    show (Nat.toDigits 10 n).asString = _
    rw [toDigits_eq_decimalDigits]
    rfl
  | negSucc n =>
    show "-" ++ (Nat.toDigits 10 (n + 1)).asString = _
    rw [toDigits_eq_decimalDigits]
    rfl

/-! ## Lemmas on the map operations -/

theorem findEntry_of_all_greater (k : String) (l : List (String × Customer))
    (h : ∀ e ∈ l, stringLess k e.1 = true) : findEntry k l = none := by
  cases l with
  | nil => rfl
  | cons e rest =>
    obtain ⟨k1, v1⟩ := e
    have h1 : stringLess k k1 = true := h (k1, v1) (List.mem_cons_self _ _)
    simp [findEntry, h1]

theorem findEntry_of_no_entry (k : String) (l : List (String × Customer))
    (h : ∀ e ∈ l, e.1 ≠ k) : findEntry k l = none := by
  induction l with
  | nil => rfl
  | cons e rest ih =>
    obtain ⟨k1, v1⟩ := e
    have hrest : findEntry k rest = none :=
      ih (fun e he => h e (List.mem_cons_of_mem _ he))
    cases h1 : stringLess k k1
    · cases h2 : stringLess k1 k
      · exact absurd (stringLess_connected h1 h2).symm (h (k1, v1) (List.mem_cons_self _ _))
      · simp [findEntry, h1, h2, hrest]
    · simp [findEntry, h1]

theorem findEntry_of_mem {k : String} {v : Customer} {l : List (String × Customer)}
    (h : KeysIncreasing l) (hm : (k, v) ∈ l) : findEntry k l = some v := by
  induction l with
  | nil => cases hm
  | cons e rest ih =>
    obtain ⟨k1, v1⟩ := e
    unfold KeysIncreasing at h ih
    rw [List.pairwise_cons] at h
    rcases List.mem_cons.mp hm with h0 | h0
    · have hk : k = k1 := congrArg Prod.fst h0
      have hv : v = v1 := congrArg Prod.snd h0
      subst hk
      subst hv
      simp [findEntry, stringLess_irrefl]
    · have h2 : stringLess k1 k = true := h.1 (k, v) h0
      simp [findEntry, stringLess_asymm h2, h2, ih h.2 h0]

theorem findEntry_insertEntry_self (k : String) (v : Customer) (l : List (String × Customer)) :
    findEntry k (insertEntry k v l) = some v := by
  induction l with
  | nil => simp [insertEntry, findEntry, stringLess_irrefl]
  | cons e rest ih =>
    obtain ⟨k1, v1⟩ := e
    cases h1 : stringLess k k1 <;> cases h2 : stringLess k1 k <;>
      simp [insertEntry, findEntry, h1, h2, stringLess_irrefl, ih]

theorem findEntry_insertEntry_ne {k k2 : String} (hne : k2 ≠ k) (v : Customer)
    (l : List (String × Customer)) :
    findEntry k2 (insertEntry k v l) = findEntry k2 l := by
  have hk : stringLess k2 k = false → stringLess k k2 = true := by
    intro h
    cases h3 : stringLess k k2
    · exact absurd (stringLess_connected h h3) hne
    · rfl
  induction l with
  | nil =>
    cases h : stringLess k2 k
    · simp [insertEntry, findEntry, h, hk h]
    · simp [insertEntry, findEntry, h]
  | cons e rest ih =>
    obtain ⟨k1, v1⟩ := e
    cases h1 : stringLess k k1
    · cases h2 : stringLess k1 k
      · have e1 : k = k1 := stringLess_connected h1 h2
        subst e1
        cases h : stringLess k2 k
        · simp [insertEntry, findEntry, h1, h, hk h]
        · simp [insertEntry, findEntry, h1, h]
      · simp [insertEntry, findEntry, h1, h2, ih]
    · cases h : stringLess k2 k
      · simp [insertEntry, findEntry, h1, h, hk h]
      · simp [insertEntry, findEntry, h1, h, stringLess_trans h h1]

theorem mem_insertEntry {k : String} {v : Customer} {l : List (String × Customer)}
    {e : String × Customer} (h : e ∈ insertEntry k v l) : e = (k, v) ∨ e ∈ l := by
  induction l with
  | nil =>
    have h0 : e = (k, v) := by simpa [insertEntry] using h
    exact Or.inl h0
  | cons e1 rest ih =>
    obtain ⟨k1, v1⟩ := e1
    cases h1 : stringLess k k1
    · cases h2 : stringLess k1 k
      · have e1 : k = k1 := stringLess_connected h1 h2
        have h0 : e = (k1, v) ∨ e ∈ rest := by simpa [insertEntry, h1, h2] using h
        rcases h0 with h0 | h0
        · exact Or.inl (by rw [h0, e1])
        · exact Or.inr (List.mem_cons_of_mem _ h0)
      · have h0 : e = (k1, v1) ∨ e ∈ insertEntry k v rest := by
          simpa [insertEntry, h1, h2] using h
        rcases h0 with h0 | h0
        · exact Or.inr (by rw [h0]; exact List.mem_cons_self _ _)
        · rcases ih h0 with h3 | h3
          · exact Or.inl h3
          · exact Or.inr (List.mem_cons_of_mem _ h3)
    · have h0 : e = (k, v) ∨ e = (k1, v1) ∨ e ∈ rest := by
        simpa [insertEntry, h1] using h
      rcases h0 with h0 | h0
      · exact Or.inl h0
      · exact Or.inr (List.mem_cons.mpr h0)

theorem keysIncreasing_insertEntry (k : String) (v : Customer) {l : List (String × Customer)}
    (h : KeysIncreasing l) : KeysIncreasing (insertEntry k v l) := by
  induction l with
  | nil => simp [insertEntry, KeysIncreasing]
  | cons e rest ih =>
    obtain ⟨k1, v1⟩ := e
    unfold KeysIncreasing at h ih ⊢
    rw [List.pairwise_cons] at h
    cases h1 : stringLess k k1
    · cases h2 : stringLess k1 k
      · have e1 : k = k1 := stringLess_connected h1 h2
        subst e1
        simp only [insertEntry, h1]
        exact List.pairwise_cons.mpr ⟨h.1, h.2⟩
      · simp only [insertEntry, h1, h2]
        refine List.pairwise_cons.mpr ⟨?_, ih h.2⟩
        intro e he
        rcases mem_insertEntry he with h3 | h3
        · rw [h3]; exact h2
        · exact h.1 e h3
    · simp only [insertEntry, h1]
      refine List.pairwise_cons.mpr ⟨?_, List.pairwise_cons.mpr h⟩
      intro e he
      rcases List.mem_cons.mp he with h3 | h3
      · rw [h3]; exact h1
      · exact stringLess_trans h1 (h.1 e h3)

theorem eraseEntry_sublist (k : String) (l : List (String × Customer)) :
    List.Sublist (eraseEntry k l) l := by
  induction l with
  | nil => exact List.Sublist.refl _
  | cons e rest ih =>
    obtain ⟨k1, v1⟩ := e
    cases h1 : stringLess k k1 <;> cases h2 : stringLess k1 k <;>
      simp [eraseEntry, h1, h2, ih]

theorem keysIncreasing_eraseEntry (k : String) {l : List (String × Customer)}
    (h : KeysIncreasing l) : KeysIncreasing (eraseEntry k l) :=
  List.Pairwise.sublist (eraseEntry_sublist k l) h

theorem findEntry_eraseEntry_self (k : String) {l : List (String × Customer)}
    (h : KeysIncreasing l) : findEntry k (eraseEntry k l) = none := by
  induction l with
  | nil => rfl
  | cons e rest ih =>
    obtain ⟨k1, v1⟩ := e
    unfold KeysIncreasing at h ih
    rw [List.pairwise_cons] at h
    cases h1 : stringLess k k1
    · cases h2 : stringLess k1 k
      · have e1 : k = k1 := stringLess_connected h1 h2
        subst e1
        simp only [eraseEntry, h1]
        exact findEntry_of_all_greater k rest h.1
      · simp [eraseEntry, findEntry, h1, h2, ih h.2]
    · simp [eraseEntry, findEntry, h1]

theorem findEntry_eraseEntry_ne {k k2 : String} (hne : k2 ≠ k) {l : List (String × Customer)}
    (h : KeysIncreasing l) : findEntry k2 (eraseEntry k l) = findEntry k2 l := by
  induction l with
  | nil => rfl
  | cons e rest ih =>
    obtain ⟨k1, v1⟩ := e
    unfold KeysIncreasing at h ih
    rw [List.pairwise_cons] at h
    cases h1 : stringLess k k1
    · cases h2 : stringLess k1 k
      · have e1 : k = k1 := stringLess_connected h1 h2
        subst e1
        simp only [eraseEntry, h1]
        cases h3 : stringLess k2 k
        · have h4 : stringLess k k2 = true := by
            cases h4 : stringLess k k2
            · exact absurd (stringLess_connected h3 h4) hne
            · rfl
          simp [findEntry, h3, h4]
        · simp only [findEntry, h3, if_true]
          exact findEntry_of_all_greater k2 rest
            (fun e he => stringLess_trans h3 (h.1 e he))
      · simp [eraseEntry, findEntry, h1, h2, ih h.2]
    · simp [eraseEntry, h1]

theorem eraseEntry_of_findEntry_none {k : String} {l : List (String × Customer)}
    (h : findEntry k l = none) : eraseEntry k l = l := by
  induction l with
  | nil => rfl
  | cons e rest ih =>
    obtain ⟨k1, v1⟩ := e
    cases h1 : stringLess k k1
    · cases h2 : stringLess k1 k
      · simp [findEntry, h1, h2] at h
      · simp only [findEntry, h1, h2] at h
        simp [eraseEntry, h1, h2, ih (by simpa using h)]
    · simp [eraseEntry, h1]

theorem length_insertEntry_of_none {k : String} (v : Customer) {l : List (String × Customer)}
    (h : findEntry k l = none) : (insertEntry k v l).length = l.length + 1 := by
  induction l with
  | nil => rfl
  | cons e rest ih =>
    obtain ⟨k1, v1⟩ := e
    cases h1 : stringLess k k1
    · cases h2 : stringLess k1 k
      · simp [findEntry, h1, h2] at h
      · simp only [findEntry, h1, h2] at h
        simp [insertEntry, h1, h2, ih (by simpa using h)]
    · simp [insertEntry, h1]

theorem length_insertEntry_of_some {k : String} (v : Customer) {l : List (String × Customer)}
    (h : findEntry k l ≠ none) : (insertEntry k v l).length = l.length := by
  induction l with
  | nil => exact absurd rfl h
  | cons e rest ih =>
    obtain ⟨k1, v1⟩ := e
    cases h1 : stringLess k k1
    · cases h2 : stringLess k1 k
      · simp [insertEntry, h1, h2]
      · simp only [findEntry, h1, h2] at h
        simp [insertEntry, h1, h2, ih (by simpa using h)]
    · simp [findEntry, h1] at h

/-! ## Lemmas on sequences of calls -/

theorem exec_add_data (crm : CRMSystem) (tid id name : String) (age : Int) :
    ((Call.add tid id name age).exec crm).1.customerData =
      insertEntry id (Customer.new name age id) crm.customerData := rfl

theorem exec_remove_data (crm : CRMSystem) (tid id : String) :
    ((Call.remove tid id).exec crm).1.customerData = eraseEntry id crm.customerData := rfl

theorem runCalls_cons (crm : CRMSystem) (c : Call) (cs : List Call) :
    (runCalls crm (c :: cs)).1 = (runCalls (c.exec crm).1 cs).1 := rfl

theorem runCalls_append (crm : CRMSystem) (cs ds : List Call) :
    (runCalls crm (cs ++ ds)).1 = (runCalls (runCalls crm cs).1 ds).1 := by
  induction cs generalizing crm with
  | nil => rfl
  | cons c cs ih => rw [List.cons_append, runCalls_cons, runCalls_cons, ih]

theorem keysIncreasing_exec (crm : CRMSystem) (c : Call)
    (h : KeysIncreasing crm.customerData) : KeysIncreasing (c.exec crm).1.customerData := by
  cases c with
  | add tid id name age => exact keysIncreasing_insertEntry _ _ h
  | remove tid id => exact keysIncreasing_eraseEntry _ h

theorem keysIncreasing_runCalls (crm : CRMSystem) (cs : List Call)
    (h : KeysIncreasing crm.customerData) :
    KeysIncreasing (runCalls crm cs).1.customerData := by
  induction cs generalizing crm with
  | nil => exact h
  | cons c cs ih =>
    rw [runCalls_cons]
    exact ih _ (keysIncreasing_exec crm c h)

theorem keysIncreasing_empty : KeysIncreasing CRMSystem.empty.customerData :=
  List.Pairwise.nil

theorem find_exec_of_ne (crm : CRMSystem) (c : Call) (id : String)
    (h : KeysIncreasing crm.customerData) (hne : c.id ≠ id) :
    (c.exec crm).1.find id = crm.find id := by
  cases c with
  | add tid k name age => exact findEntry_insertEntry_ne (Ne.symm hne) _ _
  | remove tid k => exact findEntry_eraseEntry_ne (Ne.symm hne) h

theorem find_runCalls_of_untouched (crm : CRMSystem) (cs : List Call) (id : String)
    (h : KeysIncreasing crm.customerData) (hcs : ∀ c ∈ cs, c.id ≠ id) :
    (runCalls crm cs).1.find id = crm.find id := by
  induction cs generalizing crm with
  | nil => rfl
  | cons c cs ih =>
    rw [runCalls_cons, ih _ (keysIncreasing_exec crm c h)
      (fun d hd => hcs d (List.mem_cons_of_mem _ hd))]
    exact find_exec_of_ne crm c id h (hcs c (List.mem_cons_self _ _))

theorem find_runCalls_of_no_add (crm : CRMSystem) (cs : List Call) (id : String)
    (h : KeysIncreasing crm.customerData) (h0 : crm.find id = none)
    (hcs : ∀ c ∈ cs, c.isAdd = true → c.id ≠ id) :
    (runCalls crm cs).1.find id = none := by
  induction cs generalizing crm with
  | nil => exact h0
  | cons c cs ih =>
    rw [runCalls_cons]
    refine ih _ (keysIncreasing_exec crm c h) ?_
      (fun d hd => hcs d (List.mem_cons_of_mem _ hd))
    by_cases hc : c.id = id
    · cases c with
      | add tid k name age => exact absurd hc (hcs _ (List.mem_cons_self _ _) rfl)
      | remove tid k =>
        have hk : k = id := hc
        subst hk
        exact findEntry_eraseEntry_self k h
    · rw [find_exec_of_ne crm c id h hc]
      exact h0

theorem find_runCalls_removes (crm : CRMSystem) (cs : List Call) (id : String)
    (h : KeysIncreasing crm.customerData) (hrem : ∀ c ∈ cs, c.isAdd = false)
    (hid : id ∈ cs.map Call.id ∨ crm.find id = none) :
    (runCalls crm cs).1.find id = none := by
  induction cs generalizing crm with
  | nil =>
    rcases hid with hid | hid
    · cases hid
    · exact hid
  | cons c cs ih =>
    rw [runCalls_cons]
    refine ih _ (keysIncreasing_exec crm c h)
      (fun d hd => hrem d (List.mem_cons_of_mem _ hd)) ?_
    cases c with
    | add tid k name age => exact absurd (hrem _ (List.mem_cons_self _ _)) (by simp [Call.isAdd])
    | remove tid k =>
      by_cases hk : k = id
      · subst hk
        exact Or.inr (findEntry_eraseEntry_self k h)
      · rcases hid with hid | hid
        · rw [List.map_cons, List.mem_cons] at hid
          rcases hid with hid | hid
          · exact absurd hid.symm hk
          · exact Or.inl hid
        · refine Or.inr ?_
          rw [find_exec_of_ne crm (Call.remove tid k) id h hk]
          exact hid

theorem customerData_eq_nil_of_find_none (crm : CRMSystem)
    (h : ∀ id : String, crm.find id = none) : crm.customerData = [] := by
  cases hd : crm.customerData with
  | nil => rfl
  | cons e rest =>
    obtain ⟨k1, v1⟩ := e
    have h1 := h k1
    unfold CRMSystem.find at h1
    rw [hd] at h1
    simp [findEntry, stringLess_irrefl] at h1

theorem size_runCalls_adds (crm : CRMSystem) (cs : List Call)
    (hadd : ∀ c ∈ cs, c.isAdd = true) (hnd : (cs.map Call.id).Nodup)
    (hfresh : ∀ c ∈ cs, crm.find c.id = none) :
    (runCalls crm cs).1.size = crm.size + cs.length := by
  induction cs generalizing crm with
  | nil => rfl
  | cons c cs ih =>
    rw [List.map_cons, List.nodup_cons] at hnd
    cases c with
    | remove tid k => exact absurd (hadd _ (List.mem_cons_self _ _)) (by simp [Call.isAdd])
    | add tid k name age =>
      rw [runCalls_cons, ih _ (fun d hd => hadd d (List.mem_cons_of_mem _ hd)) hnd.2]
      · have h1 : ((Call.add tid k name age).exec crm).1.size = crm.size + 1 :=
          length_insertEntry_of_none _ (hfresh _ (List.mem_cons_self _ _))
        rw [h1, List.length_cons]
        omega
      · intro d hd
        have hne : d.id ≠ k := by
          intro e
          exact hnd.1 (List.mem_map.mpr ⟨d, hd, e⟩)
        have h2 : ((Call.add tid k name age).exec crm).1.find d.id = crm.find d.id :=
          findEntry_insertEntry_ne hne _ _
        rw [h2]
        exact hfresh d (List.mem_cons_of_mem _ hd)

theorem printAllCustomers_eq_join (crm : CRMSystem) :
    crm.printAllCustomers = String.join (crm.listAll.map Customer.printDetails) := by
  unfold CRMSystem.printAllCustomers CRMSystem.listAll String.join
  rw [List.foldl_map, List.foldl_map]

theorem keys_nodup_of_keysIncreasing {l : List (String × Customer)}
    (h : KeysIncreasing l) : (l.map Prod.fst).Nodup := by
  unfold List.Nodup
  rw [List.pairwise_map]
  exact List.Pairwise.imp (fun hab => stringLess_ne hab) h

theorem keyIsCustomerID_exec (crm : CRMSystem) (c : Call)
    (h : KeyIsCustomerID crm.customerData) : KeyIsCustomerID (c.exec crm).1.customerData := by
  cases c with
  | add tid id name age =>
    intro e he
    rcases mem_insertEntry he with h1 | h1
    · rw [h1]; rfl
    · exact h e h1
  | remove tid id =>
    intro e he
    exact h e (List.Sublist.subset (eraseEntry_sublist id crm.customerData) he)

theorem keyIsCustomerID_runCalls (crm : CRMSystem) (cs : List Call)
    (h : KeyIsCustomerID crm.customerData) :
    KeyIsCustomerID (runCalls crm cs).1.customerData := by
  induction cs generalizing crm with
  | nil => exact h
  | cons c cs ih =>
    rw [runCalls_cons]
    exact ih _ (keyIsCustomerID_exec crm c h)

theorem filter_key_insertEntry (k : String) (v : Customer) {l : List (String × Customer)}
    (h : KeysIncreasing l) :
    (insertEntry k v l).filter (fun e => decide (e.1 = k)) = [(k, v)] := by
  have hgt : ∀ l2 : List (String × Customer), (∀ e ∈ l2, stringLess k e.1 = true) →
      l2.filter (fun e => decide (e.1 = k)) = [] := by
    intro l2 h2
    rw [List.filter_eq_nil_iff]
    intro e he
    simpa using Ne.symm (stringLess_ne (h2 e he))
  induction l with
  | nil => simp [insertEntry]
  | cons e rest ih =>
    obtain ⟨k1, v1⟩ := e
    unfold KeysIncreasing at h ih
    rw [List.pairwise_cons] at h
    cases h1 : stringLess k k1
    · cases h2 : stringLess k1 k
      · have e1 : k = k1 := stringLess_connected h1 h2
        subst e1
        have e2 : insertEntry k v ((k, v1) :: rest) = (k, v) :: rest := by
          simp [insertEntry, h1]
        rw [e2, List.filter_cons_of_pos (by simp), hgt rest h.1]
      · have e2 : insertEntry k v ((k1, v1) :: rest) = (k1, v1) :: insertEntry k v rest := by
          simp [insertEntry, h1, h2]
        rw [e2, List.filter_cons_of_neg (by simpa using stringLess_ne h2)]
        exact ih h.2
    · have e2 : insertEntry k v ((k1, v1) :: rest) = (k, v) :: (k1, v1) :: rest := by
        simp [insertEntry, h1]
      rw [e2, List.filter_cons_of_pos (by simp), hgt ((k1, v1) :: rest)]
      intro e he
      rcases List.mem_cons.mp he with h3 | h3
      · rw [h3]; exact h1
      · exact stringLess_trans h1 (h.1 e h3)

/-! ## Claims on single calls -/

/-- C7: `Customer::printDetails` writes exactly
"Customer ID: <customerID>, Name: <name>, Age: <age in decimal>" and a newline, that is,
the customer identifier followed by what `Person::printDetails` writes for the same name
and age; `Person::printDetails` writes exactly "Name: <name>, Age: <age in decimal>" and a
newline, a text built from the name and the age alone. -/
theorem printDetails_text (name : String) (age : Int) (customerID : String) :
    (Customer.new name age customerID).printDetails =
      "Customer ID: " ++ customerID ++ ", Name: " ++ name ++ ", Age: " ++ decimal age ++ "\n" ∧
    (Person.mk name age).printDetails =
      "Name: " ++ name ++ ", Age: " ++ decimal age ++ "\n" ∧
    (Customer.new name age customerID).printDetails =
      "Customer ID: " ++ customerID ++ ", " ++ (Person.mk name age).printDetails := by
  refine ⟨?_, ?_, ?_⟩
  · rw [← toString_eq_decimal]
    rfl
  · rw [← toString_eq_decimal]
    rfl
  · have e : ", Name: " = ", " ++ "Name: " := by decide
    unfold Customer.printDetails Person.printDetails Customer.new
    rw [e]
    simp only [String.append_assoc]

/-- C1: in every registry state, with or without an entry for `id`, the lookup made right
after `addCustomer(id, name, age)` finds a record; it is the `Customer` built from
`name`, `age` and `id`, its three fields are those values, and `printCustomer` writes
its details rather than the "not found" line. -/
theorem lookup_after_addCustomer (crm : CRMSystem) (tid id name : String) (age : Int) :
    (crm.addCustomer tid id name age).1.find id = some (Customer.new name age id) ∧
    (∃ c : Customer, (crm.addCustomer tid id name age).1.find id = some c ∧
      c.customerID = id ∧ c.name = name ∧ c.age = age) ∧
    (crm.addCustomer tid id name age).1.printCustomer id =
      (Customer.new name age id).printDetails := by
  have h : (crm.addCustomer tid id name age).1.find id = some (Customer.new name age id) :=
    findEntry_insertEntry_self id (Customer.new name age id) crm.customerData
  refine ⟨h, ⟨Customer.new name age id, h, rfl, rfl, rfl⟩, ?_⟩
  unfold CRMSystem.printCustomer
  rw [h]

/-- C3: when the registry has no entry for `id`, `removeCustomer(id)` returns normally,
writing the same log line as for a present id, with the registry unchanged: same mapping,
same number of entries, same result for every lookup (nothing is found for `id` before
and after), same listing. -/
theorem removeCustomer_absent (crm : CRMSystem) (tid id : String)
    (h : ∀ e ∈ crm.customerData, e.1 ≠ id) :
    (crm.removeCustomer tid id).1 = crm ∧
    (crm.removeCustomer tid id).1.size = crm.size ∧
    (∀ id2 : String, (crm.removeCustomer tid id).1.find id2 = crm.find id2) ∧
    (crm.removeCustomer tid id).1.find id = none ∧
    (crm.removeCustomer tid id).1.listAll = crm.listAll ∧
    (crm.removeCustomer tid id).2 = "[Thread " ++ tid ++ "] Customer " ++ id ++ " removed.\n" := by
  have hf : crm.find id = none := findEntry_of_no_entry id crm.customerData h
  have e : (crm.removeCustomer tid id).1 = crm := by
    cases crm with
    | mk data =>
      show CRMSystem.mk (eraseEntry id data) = CRMSystem.mk data
      rw [eraseEntry_of_findEntry_none hf]
  rw [e]
  exact ⟨rfl, rfl, fun _ => rfl, hf, rfl, rfl⟩

/-- Witness for C3: removing the absent "C003" from the registry holding Alice and Bob. -/
theorem removeCustomer_absent_witness :
    (∀ e ∈ ((CRMSystem.empty.addCustomer "1" "C001" "Alice" 30).1.addCustomer "2" "C002" "Bob"
        25).1.customerData, e.1 ≠ "C003") ∧
    ((((CRMSystem.empty.addCustomer "1" "C001" "Alice" 30).1.addCustomer "2" "C002" "Bob" 25).1
        ).removeCustomer "3" "C003").1 =
      ((CRMSystem.empty.addCustomer "1" "C001" "Alice" 30).1.addCustomer "2" "C002" "Bob" 25).1 :=
  ⟨by decide, (removeCustomer_absent _ "3" "C003" (by decide)).1⟩

/-- C5: from the empty registry, after `addCustomer("C001","Alice",30)`,
`addCustomer("C002","Bob",25)`, `removeCustomer("C001")` in that order, the listing visits
exactly one record, Bob's, printed as "Customer ID: C002, Name: Bob, Age: 25", and the
lookup of "C001" finds nothing. -/
theorem scenario_alice_bob (tid1 tid2 tid3 : String) :
    (runCalls CRMSystem.empty (mainCalls tid1 tid2 tid3)).1.listAll =
      [Customer.new "Bob" 25 "C002"] ∧
    (runCalls CRMSystem.empty (mainCalls tid1 tid2 tid3)).1.printAllCustomers =
      "Customer ID: C002, Name: Bob, Age: 25\n" ∧
    (runCalls CRMSystem.empty (mainCalls tid1 tid2 tid3)).1.find "C001" = none ∧
    (runCalls CRMSystem.empty (mainCalls tid1 tid2 tid3)).1.printCustomer "C001" =
      "Customer with ID C001 not found.\n" := by
  refine ⟨?_, ?_, ?_, ?_⟩ <;> rfl

/-! ## Claims on sequences of calls -/

/-- C2: after any finite sequence of calls applied to the empty registry, the lookup of
`id` finds the record built by the last `addCustomer(id, ...)` when no call on `id` follows
it, and finds nothing when the sequence has no `addCustomer(id, ...)` or when the last
call on `id` is a `removeCustomer(id)`; `printCustomer` writes the details of the record
in the first case and the "not found" line in the others. -/
theorem lookup_after_calls (cs : List Call) (id : String) :
    (∀ (pre post : List Call) (tid name : String) (age : Int),
        cs = pre ++ Call.add tid id name age :: post → (∀ c ∈ post, c.id ≠ id) →
        (runCalls CRMSystem.empty cs).1.find id = some (Customer.new name age id) ∧
        (runCalls CRMSystem.empty cs).1.printCustomer id =
          (Customer.new name age id).printDetails) ∧
    ((∀ c ∈ cs, c.isAdd = true → c.id ≠ id) →
        (runCalls CRMSystem.empty cs).1.find id = none ∧
        (runCalls CRMSystem.empty cs).1.printCustomer id =
          "Customer with ID " ++ id ++ " not found.\n") ∧
    (∀ (pre post : List Call) (tid : String),
        cs = pre ++ Call.remove tid id :: post → (∀ c ∈ post, c.id ≠ id) →
        (runCalls CRMSystem.empty cs).1.find id = none ∧
        (runCalls CRMSystem.empty cs).1.printCustomer id =
          "Customer with ID " ++ id ++ " not found.\n") := by
  have hsome : ∀ (crm : CRMSystem) (c : Customer), crm.find id = some c →
      crm.find id = some c ∧ crm.printCustomer id = c.printDetails := by
    intro crm c h
    refine ⟨h, ?_⟩
    unfold CRMSystem.printCustomer
    rw [h]
  have hnone : ∀ (crm : CRMSystem), crm.find id = none →
      crm.find id = none ∧
      crm.printCustomer id = "Customer with ID " ++ id ++ " not found.\n" := by
    intro crm h
    refine ⟨h, ?_⟩
    unfold CRMSystem.printCustomer
    rw [h]
  refine ⟨?_, ?_, ?_⟩
  · intro pre post tid name age hcs hpost
    apply hsome
    subst hcs
    have hpre := keysIncreasing_runCalls CRMSystem.empty pre keysIncreasing_empty
    rw [runCalls_append, runCalls_cons,
      find_runCalls_of_untouched _ post id (keysIncreasing_exec _ _ hpre) hpost]
    exact findEntry_insertEntry_self id _ _
  · intro hno
    apply hnone
    exact find_runCalls_of_no_add CRMSystem.empty cs id keysIncreasing_empty rfl hno
  · intro pre post tid hcs hpost
    apply hnone
    subst hcs
    have hpre := keysIncreasing_runCalls CRMSystem.empty pre keysIncreasing_empty
    rw [runCalls_append, runCalls_cons,
      find_runCalls_of_untouched _ post id (keysIncreasing_exec _ _ hpre) hpost]
    exact findEntry_eraseEntry_self id hpre

/-- Witness for C2 on the calls of `main` in program order: "C002" is added and not
touched again, "C003" is never added, "C001" is removed last. -/
theorem lookup_after_calls_witness :
    ((∀ c ∈ [Call.remove "3" "C001"], c.id ≠ "C002") ∧
      (runCalls CRMSystem.empty (mainCalls "1" "2" "3")).1.find "C002" =
        some (Customer.new "Bob" 25 "C002")) ∧
    ((∀ c ∈ mainCalls "1" "2" "3", c.isAdd = true → c.id ≠ "C003") ∧
      (runCalls CRMSystem.empty (mainCalls "1" "2" "3")).1.find "C003" = none) ∧
    ((∀ c ∈ ([] : List Call), c.id ≠ "C001") ∧
      (runCalls CRMSystem.empty (mainCalls "1" "2" "3")).1.find "C001" = none) :=
  ⟨⟨by decide,
      ((lookup_after_calls (mainCalls "1" "2" "3") "C002").1
        [Call.add "1" "C001" "Alice" 30] [Call.remove "3" "C001"] "2" "Bob" 25 rfl
        (by decide)).1⟩,
    ⟨by decide, ((lookup_after_calls (mainCalls "1" "2" "3") "C003").2.1 (by decide)).1⟩,
    ⟨by decide,
      ((lookup_after_calls (mainCalls "1" "2" "3") "C001").2.2
        [Call.add "1" "C001" "Alice" 30, Call.add "2" "C002" "Bob" 25] [] "3" rfl
        (by decide)).1⟩⟩

/-- C4: the listing of a freshly constructed registry visits no record and writes nothing;
after N `addCustomer` calls with pairwise distinct ids and no removal, applied to the
empty registry, the listing visits exactly N records. -/
theorem listAll_after_distinct_adds (cs : List Call) (hadd : ∀ c ∈ cs, c.isAdd = true)
    (hnd : (cs.map Call.id).Nodup) :
    CRMSystem.empty.listAll = [] ∧ CRMSystem.empty.printAllCustomers = "" ∧
    (runCalls CRMSystem.empty cs).1.listAll.length = cs.length := by
  refine ⟨rfl, rfl, ?_⟩
  have h := size_runCalls_adds CRMSystem.empty cs hadd hnd (fun _ _ => rfl)
  unfold CRMSystem.size at h
  unfold CRMSystem.listAll
  rw [List.length_map, h]
  exact Nat.zero_add _

/-- Witness for C4: the two `addCustomer` calls of `main`. -/
theorem listAll_after_distinct_adds_witness :
    (∀ c ∈ [Call.add "1" "C001" "Alice" 30, Call.add "2" "C002" "Bob" 25], c.isAdd = true) ∧
    ([Call.add "1" "C001" "Alice" 30, Call.add "2" "C002" "Bob" 25].map Call.id).Nodup ∧
    (runCalls CRMSystem.empty
      [Call.add "1" "C001" "Alice" 30, Call.add "2" "C002" "Bob" 25]).1.listAll.length = 2 :=
  ⟨by decide, by decide,
    (listAll_after_distinct_adds
      [Call.add "1" "C001" "Alice" 30, Call.add "2" "C002" "Bob" 25]
      (by decide) (by decide)).2.2⟩

/-- C8: for K pairwise distinct ids, the K `addCustomer` calls for those ids in any order
followed by the K `removeCustomer` calls for the same ids in any order, applied to the
empty registry, leave a registry whose listing visits no record and writes nothing. -/
theorem listAll_after_adds_then_removes (ids : List String) (adds removes : List Call)
    (hnd : ids.Nodup)
    (hadds : ∀ c ∈ adds, c.isAdd = true) (ha : List.Perm (adds.map Call.id) ids)
    (hrems : ∀ c ∈ removes, c.isAdd = false) (hr : List.Perm (removes.map Call.id) ids) :
    adds.length = ids.length ∧ removes.length = ids.length ∧
    (runCalls CRMSystem.empty adds).1.listAll.length = ids.length ∧
    (runCalls CRMSystem.empty (adds ++ removes)).1.listAll = [] ∧
    (runCalls CRMSystem.empty (adds ++ removes)).1.printAllCustomers = "" := by
  have hdata : (runCalls CRMSystem.empty (adds ++ removes)).1.customerData = [] := by
    apply customerData_eq_nil_of_find_none
    intro id
    rw [runCalls_append]
    have hk := keysIncreasing_runCalls CRMSystem.empty adds keysIncreasing_empty
    apply find_runCalls_removes _ removes id hk hrems
    by_cases hid : id ∈ ids
    · exact Or.inl ((List.Perm.mem_iff hr).mpr hid)
    · refine Or.inr (find_runCalls_of_no_add CRMSystem.empty adds id keysIncreasing_empty rfl ?_)
      intro c hc _ e
      apply hid
      rw [← e]
      exact (List.Perm.mem_iff ha).mp (List.mem_map_of_mem _ hc)
  have hlen : adds.length = ids.length := by
    rw [← List.Perm.length_eq ha, List.length_map]
  refine ⟨hlen, ?_, ?_, ?_, ?_⟩
  · rw [← List.Perm.length_eq hr, List.length_map]
  · have h := size_runCalls_adds CRMSystem.empty adds hadds
      ((List.Perm.nodup_iff ha).mpr hnd) (fun _ _ => rfl)
    unfold CRMSystem.size at h
    unfold CRMSystem.listAll
    rw [List.length_map, h, ← hlen]
    exact Nat.zero_add _
  · unfold CRMSystem.listAll
    rw [hdata]
    rfl
  · unfold CRMSystem.printAllCustomers
    rw [hdata]
    rfl

/-- Witness for C8: two ids, added in one order and removed in the other. -/
theorem listAll_after_adds_then_removes_witness :
    ["C001", "C002"].Nodup ∧
    (runCalls CRMSystem.empty
      ([Call.add "1" "C002" "Bob" 25, Call.add "2" "C001" "Alice" 30] ++
        [Call.remove "3" "C001", Call.remove "4" "C002"])).1.listAll = [] :=
  ⟨by decide,
    (listAll_after_adds_then_removes ["C001", "C002"]
      [Call.add "1" "C002" "Bob" 25, Call.add "2" "C001" "Alice" 30]
      [Call.remove "3" "C001", Call.remove "4" "C002"]
      (by decide) (by decide) (List.Perm.swap _ _ _) (by decide)
      (List.Perm.refl _)).2.2.2.1⟩

/-- C6: in every registry state reached from the empty registry by `addCustomer` and
`removeCustomer` calls no two entries have the same key and no two listed records have
the same `customerID`; and `addCustomer(id, name2, age2)` on such a state that holds an
entry for `id` returns normally with the number of entries unchanged and with exactly
one listed record for `id`, the newly built one. -/
theorem one_entry_per_id (cs : List Call) (tid id name2 : String) (age2 : Int) :
    ((runCalls CRMSystem.empty cs).1.customerData.map Prod.fst).Nodup ∧
    ((runCalls CRMSystem.empty cs).1.listAll.map Customer.customerID).Nodup ∧
    (id ∈ (runCalls CRMSystem.empty cs).1.customerData.map Prod.fst →
      ((runCalls CRMSystem.empty cs).1.addCustomer tid id name2 age2).1.size =
        (runCalls CRMSystem.empty cs).1.size ∧
      (((runCalls CRMSystem.empty cs).1.addCustomer tid id name2 age2).1.listAll.filter
        (fun c => decide (c.customerID = id))) = [Customer.new name2 age2 id]) := by
  have hk := keysIncreasing_runCalls CRMSystem.empty cs keysIncreasing_empty
  have hc : KeyIsCustomerID (runCalls CRMSystem.empty cs).1.customerData :=
    keyIsCustomerID_runCalls CRMSystem.empty cs (fun e he => by cases he)
  have hkeys := keys_nodup_of_keysIncreasing hk
  refine ⟨hkeys, ?_, ?_⟩
  · have e : (runCalls CRMSystem.empty cs).1.listAll.map Customer.customerID =
        (runCalls CRMSystem.empty cs).1.customerData.map Prod.fst := by
      unfold CRMSystem.listAll
      rw [List.map_map]
      exact List.map_congr_left (fun e he => hc e he)
    rw [e]
    exact hkeys
  · intro hmem
    have hfound : (runCalls CRMSystem.empty cs).1.find id ≠ none := by
      obtain ⟨e, he, hid⟩ := List.mem_map.mp hmem
      obtain ⟨k1, v1⟩ := e
      have hk1 : k1 = id := hid
      subst hk1
      have hf : (runCalls CRMSystem.empty cs).1.find k1 = some v1 := findEntry_of_mem hk he
      rw [hf]
      exact Option.some_ne_none v1
    refine ⟨length_insertEntry_of_some _ hfound, ?_⟩
    have hc2 : KeyIsCustomerID
        ((runCalls CRMSystem.empty cs).1.addCustomer tid id name2 age2).1.customerData :=
      keyIsCustomerID_exec _ (Call.add tid id name2 age2) hc
    unfold CRMSystem.listAll
    rw [List.filter_map]
    have e : List.filter ((fun c : Customer => decide (c.customerID = id)) ∘
          fun pair : String × Customer => pair.2)
        ((runCalls CRMSystem.empty cs).1.addCustomer tid id name2 age2).1.customerData =
        List.filter (fun e => decide (e.1 = id))
        ((runCalls CRMSystem.empty cs).1.addCustomer tid id name2 age2).1.customerData := by
      apply List.filter_congr
      intro e he
      simp only [Function.comp_apply]
      rw [hc2 e he]
    rw [e]
    show List.map _ (List.filter _ (insertEntry id (Customer.new name2 age2 id)
      (runCalls CRMSystem.empty cs).1.customerData)) = _
    rw [filter_key_insertEntry id _ hk]
    rfl

/-- Witness for C6: after the three calls of `main` in program order the registry holds
"C002"; adding "C002" again with other data keeps one entry, the new record. -/
theorem one_entry_per_id_witness :
    "C002" ∈ (runCalls CRMSystem.empty (mainCalls "1" "2" "3")).1.customerData.map Prod.fst ∧
    ((runCalls CRMSystem.empty (mainCalls "1" "2" "3")).1.addCustomer "4" "C002" "Rob" 52).1.size =
      (runCalls CRMSystem.empty (mainCalls "1" "2" "3")).1.size ∧
    (((runCalls CRMSystem.empty (mainCalls "1" "2" "3")).1.addCustomer "4" "C002" "Rob"
        52).1.listAll.filter (fun c => decide (c.customerID = "C002"))) =
      [Customer.new "Rob" 52 "C002"] :=
  ⟨by decide, (one_entry_per_id (mainCalls "1" "2" "3") "4" "C002" "Rob" 52).2.2 (by decide)⟩

theorem schedules_of_main (tid1 tid2 tid3 : String) (order : List Call)
    (h : List.Perm order (mainCalls tid1 tid2 tid3)) :
    order = [Call.add tid1 "C001" "Alice" 30, Call.add tid2 "C002" "Bob" 25,
        Call.remove tid3 "C001"] ∨
    order = [Call.add tid2 "C002" "Bob" 25, Call.add tid1 "C001" "Alice" 30,
        Call.remove tid3 "C001"] ∨
    order = [Call.remove tid3 "C001", Call.add tid2 "C002" "Bob" 25,
        Call.add tid1 "C001" "Alice" 30] ∨
    order = [Call.add tid2 "C002" "Bob" 25, Call.remove tid3 "C001",
        Call.add tid1 "C001" "Alice" 30] ∨
    order = [Call.remove tid3 "C001", Call.add tid1 "C001" "Alice" 30,
        Call.add tid2 "C002" "Bob" 25] ∨
    order = [Call.add tid1 "C001" "Alice" 30, Call.remove tid3 "C001",
        Call.add tid2 "C002" "Bob" 25] := by
  have h2 := List.mem_permutations.mpr h
  simpa [mainCalls, List.permutations, List.permutationsAux_cons, List.permutationsAux2]
    using h2

theorem main_outcome_one (tid1 tid3 : String) (order : List Call)
    (st : (runCalls CRMSystem.empty order).1 =
      CRMSystem.mk [("C002", Customer.new "Bob" 25 "C002")])
    (hs : ¬ List.Sublist [Call.remove tid3 "C001", Call.add tid1 "C001" "Alice" 30] order) :
    Customer.new "Bob" 25 "C002" ∈ (runCalls CRMSystem.empty order).1.listAll ∧
    (Customer.new "Alice" 30 "C001" ∈ (runCalls CRMSystem.empty order).1.listAll ↔
      List.Sublist [Call.remove tid3 "C001", Call.add tid1 "C001" "Alice" 30] order) ∧
    (runCalls CRMSystem.empty order).1.listAll.length =
      (if List.Sublist [Call.remove tid3 "C001", Call.add tid1 "C001" "Alice" 30] order
        then 2 else 1) ∧
    main order = (runCalls CRMSystem.empty order).2 ++ "\nFinal list of customers:\n" ++
      (if List.Sublist [Call.remove tid3 "C001", Call.add tid1 "C001" "Alice" 30] order
        then "Customer ID: C001, Name: Alice, Age: 30\nCustomer ID: C002, Name: Bob, Age: 25\n"
        else "Customer ID: C002, Name: Bob, Age: 25\n") := by
  unfold main
  simp only []
  rw [st, if_neg hs, if_neg hs]
  refine ⟨by decide, ?_, rfl, rfl⟩
  constructor
  · intro hmem
    exact absurd hmem (by decide)
  · intro h2
    exact absurd h2 hs

theorem main_outcome_two (tid1 tid3 : String) (order : List Call)
    (st : (runCalls CRMSystem.empty order).1 =
      CRMSystem.mk [("C001", Customer.new "Alice" 30 "C001"),
        ("C002", Customer.new "Bob" 25 "C002")])
    (hs : List.Sublist [Call.remove tid3 "C001", Call.add tid1 "C001" "Alice" 30] order) :
    Customer.new "Bob" 25 "C002" ∈ (runCalls CRMSystem.empty order).1.listAll ∧
    (Customer.new "Alice" 30 "C001" ∈ (runCalls CRMSystem.empty order).1.listAll ↔
      List.Sublist [Call.remove tid3 "C001", Call.add tid1 "C001" "Alice" 30] order) ∧
    (runCalls CRMSystem.empty order).1.listAll.length =
      (if List.Sublist [Call.remove tid3 "C001", Call.add tid1 "C001" "Alice" 30] order
        then 2 else 1) ∧
    main order = (runCalls CRMSystem.empty order).2 ++ "\nFinal list of customers:\n" ++
      (if List.Sublist [Call.remove tid3 "C001", Call.add tid1 "C001" "Alice" 30] order
        then "Customer ID: C001, Name: Alice, Age: 30\nCustomer ID: C002, Name: Bob, Age: 25\n"
        else "Customer ID: C002, Name: Bob, Age: 25\n") := by
  unfold main
  simp only []
  rw [st, if_pos hs, if_pos hs]
  refine ⟨by decide, ?_, rfl, rfl⟩
  constructor
  · intro _
    exact hs
  · intro _
    decide

/-- C10: for every order in which the three calls started by `main` take the lock, the
final listing contains Bob's record; it contains Alice's record exactly when
`removeCustomer("C001")` comes before `addCustomer("C001", ...)`; the listing has two
records in that case and one otherwise, `main` prints the corresponding lines after the
heading, and both cases occur for some order. -/
theorem main_final_listing (tid1 tid2 tid3 : String) (order : List Call)
    (h : List.Perm order (mainCalls tid1 tid2 tid3)) :
    (Customer.new "Bob" 25 "C002" ∈ (runCalls CRMSystem.empty order).1.listAll ∧
    (Customer.new "Alice" 30 "C001" ∈ (runCalls CRMSystem.empty order).1.listAll ↔
      List.Sublist [Call.remove tid3 "C001", Call.add tid1 "C001" "Alice" 30] order) ∧
    (runCalls CRMSystem.empty order).1.listAll.length =
      (if List.Sublist [Call.remove tid3 "C001", Call.add tid1 "C001" "Alice" 30] order
        then 2 else 1) ∧
    main order = (runCalls CRMSystem.empty order).2 ++ "\nFinal list of customers:\n" ++
      (if List.Sublist [Call.remove tid3 "C001", Call.add tid1 "C001" "Alice" 30] order
        then "Customer ID: C001, Name: Alice, Age: 30\nCustomer ID: C002, Name: Bob, Age: 25\n"
        else "Customer ID: C002, Name: Bob, Age: 25\n")) ∧
    (∃ o2 : List Call, List.Perm o2 (mainCalls tid1 tid2 tid3) ∧
      (runCalls CRMSystem.empty o2).1.listAll.length = 2) ∧
    (∃ o1 : List Call, List.Perm o1 (mainCalls tid1 tid2 tid3) ∧
      (runCalls CRMSystem.empty o1).1.listAll.length = 1) := by
  refine ⟨?_, ⟨(mainCalls tid1 tid2 tid3).reverse, List.reverse_perm _, rfl⟩,
    ⟨mainCalls tid1 tid2 tid3, List.Perm.refl _, rfl⟩⟩
  rcases schedules_of_main tid1 tid2 tid3 order h with e | e | e | e | e | e <;> subst e
  · exact main_outcome_one tid1 tid3 _ rfl (by simp [List.sublist_cons_iff])
  · exact main_outcome_one tid1 tid3 _ rfl (by simp [List.sublist_cons_iff])
  · exact main_outcome_two tid1 tid3 _ rfl (by simp [List.sublist_cons_iff])
  · exact main_outcome_two tid1 tid3 _ rfl (by simp [List.sublist_cons_iff])
  · exact main_outcome_two tid1 tid3 _ rfl (by simp [List.sublist_cons_iff])
  · exact main_outcome_one tid1 tid3 _ rfl (by simp [List.sublist_cons_iff])

/-- Witness for C10: the three calls in program order. -/
theorem main_final_listing_witness :
    List.Perm (mainCalls "1" "2" "3") (mainCalls "1" "2" "3") ∧
    Customer.new "Bob" 25 "C002" ∈
      (runCalls CRMSystem.empty (mainCalls "1" "2" "3")).1.listAll :=
  ⟨List.Perm.refl _,
    (main_final_listing "1" "2" "3" (mainCalls "1" "2" "3") (List.Perm.refl _)).1.1⟩

end CRM
